import Mathlib

/-!
Verification development for the Real-Estate-Valuation pipeline core.

Shallow embedding of the repository's Python code:
  * `scraper/property_utils.py`  — address normalization and entity resolution
  * `scraper/url_queue.py`       — durable work queue (enqueue / claim / mark)
  * `scraper/rew_detail_scraper.py` — listing upsert and validation
  * `scraper/rew_discover_all.py`   — discovery loop with circuit breaker
  * `webapp/app.py`              — multi-source reconciliation (merge engines)

Strings manipulated character-wise by the code are modelled as `List Char`;
Python floats are modelled as exact rationals (`Rat`); SQL rows are modelled
as Lean structures and tables as lists ordered the way the relevant query
orders them.
-/

namespace RealEstate

/-! ## Python string primitives used by `normalize_address` -/

/-- Characters Python's `str.strip()` removes (the ASCII whitespace set). -/
def pyWhitespace (c : Char) : Bool :=
  c = ' ' ∨ c = '\t' ∨ c = '\n' ∨ c = '\r' ∨ c = '\x0b' ∨ c = '\x0c'

/-- Python `str.strip()`: drop leading and trailing whitespace. -/
def pyStrip (s : List Char) : List Char :=
  ((s.dropWhile pyWhitespace).reverse.dropWhile pyWhitespace).reverse

/-- ASCII case folding, the effect of Python `str.lower()` on address text. -/
def lowerChar (c : Char) : Char :=
  if 'A' ≤ c ∧ c ≤ 'Z' then Char.ofNat (c.toNat + 32) else c

/-- The combined effect of `.replace(",", " ").replace(".", " ")`:
periods and commas become spaces (they are replaced, not deleted). -/
def punctToSpace (c : Char) : Char :=
  if c = ',' ∨ c = '.' then ' ' else c

/-! ## `scraper/property_utils.py` -/

/-- The inner `norm` of `normalize_address`: `None`/empty in, `None` out;
otherwise lower-case, turn periods and commas into spaces, and strip. -/
def norm (s : List Char) : Option (List Char) :=
  if s = [] then none
  else some (pyStrip ((s.map lowerChar).map punctToSpace))

/-- Embeds `normalize_address(street_address, city, province, postal_code)`:
normalize each component (the postal code first has its spaces removed),
drop missing/empty components, and join with the separator character. -/
def normalize_address (street city province : List Char)
    (postal : Option (List Char)) : List Char :=
  let street_n := norm street
  let city_n := norm city
  let prov_n := norm province
  let postal_n :=
    match postal with
    | some p => if p = [] then none else norm (p.filter (fun c => c ≠ ' '))
    | none => none
  let parts := ([street_n, city_n, prov_n, postal_n].filterMap id).filter
    (fun p => p ≠ [])
  (parts.intersperse ['|']).flatten

/-- Row of the `properties` table (lat/lng floats modelled as rationals). -/
structure PropertyRow where
  id : Nat
  street_address : List Char
  city : List Char
  province : List Char
  postal_code : Option (List Char)
  lat : Option Rat
  lng : Option Rat
  canonical_address : List Char
  deriving DecidableEq, Repr

/-- Embeds `get_or_create_property`: compute the canonical key, look up an existing
Property by it (first match, as `scalar_one_or_none` on a unique column);
if found return it with the store untouched, otherwise append a new row.
`nextId` stands for the database-assigned primary key. -/
def get_or_create_property (db : List PropertyRow) (nextId : Nat)
    (street city province : List Char) (postal : Option (List Char))
    (lat lng : Option Rat) : PropertyRow × List PropertyRow :=
  let canonical := normalize_address street city province postal
  match db.find? (fun p => p.canonical_address = canonical) with
  | some p => (p, db)
  | none =>
    let p : PropertyRow :=
      { id := nextId, street_address := street, city := city,
        province := province, postal_code := postal, lat := lat, lng := lng,
        canonical_address := canonical }
    (p, db ++ [p])

/-- Pointwise equivalence of characters under the normalizer's cleanup:
equal after case folding and punctuation-to-space replacement. -/
def charEquivB (a b : Char) : Bool :=
  punctToSpace (lowerChar a) = punctToSpace (lowerChar b)

/-- Pointwise equivalence of strings under the cleanup map (same length,
characters equivalent position by position). -/
def listEquivB : List Char → List Char → Bool
  | [], [] => true
  | a :: as, b :: bs => charEquivB a b && listEquivB as bs
  | _, _ => false

/-! ## `scraper/url_queue.py` -/

/-- Embeds `MAX_SCRAPE_ATTEMPTS = 5`. -/
def MAX_SCRAPE_ATTEMPTS : Nat := 5

/-- The `status` column of `rew_listing_urls`. -/
inductive QStatus where
  | pending
  | scraping
  | done
  | error
  deriving DecidableEq, Repr

/-- Row of the `rew_listing_urls` table.  The table is modelled as a list
ordered by `discovered_at` ascending, which is exactly the `ORDER BY
discovered_at` order the claim query uses. -/
structure QueueItem where
  id : Nat
  url : String
  status : QStatus
  attempts : Nat
  last_error : Option String
  deriving DecidableEq, Repr

/-- The `WHERE` clause of `dequeue_next_batch`:
`status = 'pending' OR (status = 'error' AND attempts < max_attempts)`. -/
def eligible (it : QueueItem) : Bool :=
  it.status = QStatus.pending ∨
    (it.status = QStatus.error ∧ it.attempts < MAX_SCRAPE_ATTEMPTS)

/-- Embeds `SELECT … WHERE eligible ORDER BY discovered_at LIMIT n`:
the first `n` eligible rows in discovery order. -/
def takeEligible : Nat → List QueueItem → List QueueItem
  | _, [] => []
  | 0, _ => []
  | n + 1, it :: rest =>
    if eligible it then it :: takeEligible n rest
    else takeEligible (n + 1) rest

/-- The `UPDATE … SET` of the claim: status becomes `scraping` and
`attempts` is incremented (timestamps are not modelled). -/
def claimItem (it : QueueItem) : QueueItem :=
  { it with status := QStatus.scraping, attempts := it.attempts + 1 }

/-- Embeds `dequeue_next_batch(session, batch_size)`: atomically pick the first
`n` eligible rows, transition them to `scraping` with `attempts + 1`, and
return their ids together with the updated table.  The whole statement runs
in one transaction, so it is modelled as one atomic step. -/
def dequeue_next_batch (n : Nat) (q : List QueueItem) :
    List Nat × List QueueItem :=
  let pickedIds := (takeEligible n q).map (fun it => it.id)
  (pickedIds,
    q.map (fun it => if it.id ∈ pickedIds then claimItem it else it))

/-- Embeds `mark_done(session, url_id)`: set status to `done` for the row with the
given id (the SQL `WHERE id=:id` is unconditional on status). -/
def mark_done (urlId : Nat) (q : List QueueItem) : List QueueItem :=
  q.map (fun it =>
    if it.id = urlId then { it with status := QStatus.done } else it)

/-- Embeds `mark_failed(session, url_id, error_msg)`: set status to `error` and
record the message.  The SQL updates exactly these two columns; in
particular `attempts` is not touched here. -/
def mark_failed (urlId : Nat) (msg : String) (q : List QueueItem) :
    List QueueItem :=
  q.map (fun it =>
    if it.id = urlId then
      { it with status := QStatus.error, last_error := some msg }
    else it)

/-- Embeds `enqueue_urls(urls, session)`: bulk insert with
`ON CONFLICT (url) DO NOTHING` — a URL already present leaves the table
unchanged; a new URL is appended as a fresh pending row with `attempts = 0`.
`nextId` stands for the database-assigned serial key. -/
def enqueue_urls : List String → Nat → List QueueItem → List QueueItem
  | [], _, q => q
  | u :: rest, nextId, q =>
    if (q.map (fun it => it.url)).contains u then
      enqueue_urls rest nextId q
    else
      enqueue_urls rest (nextId + 1)
        (q ++ [{ id := nextId, url := u, status := QStatus.pending,
                 attempts := 0, last_error := none }])

/-- The queue operations exposed by `url_queue.py`. -/
inductive QueueOp where
  | enqueue (urls : List String) (nextId : Nat)
  | claim (n : Nat)
  | markDone (urlId : Nat)
  | markFailed (urlId : Nat) (msg : String)

/-- Apply one queue operation to the table. -/
def applyOp : QueueOp → List QueueItem → List QueueItem
  | QueueOp.enqueue urls nextId, q => enqueue_urls urls nextId q
  | QueueOp.claim n, q => (dequeue_next_batch n q).2
  | QueueOp.markDone urlId, q => mark_done urlId q
  | QueueOp.markFailed urlId msg, q => mark_failed urlId msg q

/-- Apply a sequence of queue operations left to right. -/
def applyOps (ops : List QueueOp) (q : List QueueItem) : List QueueItem :=
  ops.foldl (fun acc op => applyOp op acc) q

/-- Embeds `K` callers each running `dequeue_next_batch n`, serialized: the
`FOR UPDATE SKIP LOCKED` single-statement transaction makes every claim
atomic, so a concurrent execution is equivalent to some serial order of the
`K` claims.  Returns the list of claimed id-sets and the final table. -/
def claimSeq : Nat → Nat → List QueueItem → List (List Nat) × List QueueItem
  | 0, _, q => ([], q)
  | k + 1, n, q =>
    let step := dequeue_next_batch n q
    let rest := claimSeq k n step.2
    (step.1 :: rest.1, rest.2)

/-- Number of claim-eligible rows in the table. -/
def countEligible (q : List QueueItem) : Nat :=
  (q.filter (fun it => eligible it)).length

/-- First row with the given id, as the SQL lookups address rows. -/
def findItem (urlId : Nat) (q : List QueueItem) : Option QueueItem :=
  q.find? (fun it => it.id = urlId)

/-! ## `scraper/rew_detail_scraper.py` — `upsert_listing` -/

/-- Scalar columns of `rew_listings` that the payload dict can carry
(besides the key column `rew_url`, modelled separately). -/
inductive ListingField where
  | street_address
  | city
  | province
  | postal_code
  | price_cad
  | beds
  | baths
  | sqft
  | lat
  | lng
  | mls_number
  | property_id
  deriving DecidableEq, Repr

/-- A scalar column value; `null` is the SQL NULL every unset column
defaults to. -/
inductive FieldVal where
  | null
  | int (n : Int)
  | str (s : String)
  | num (q : Rat)
  deriving DecidableEq, Repr

/-- Row of `rew_listings` (scalar part), keyed by `rew_url`. -/
structure ListingRow where
  rew_url : String
  fields : ListingField → FieldVal

/-- The parsed `data` dict handed to `upsert_listing`: the `rew_url` entry
plus the other keys present in the dict, in dict order.  A key absent from
`items` is absent from the dict (`data.items()` never yields it). -/
structure ListingPayload where
  rew_url : Option String
  items : List (ListingField × FieldVal)

/-- The `for k, v in data.items(): setattr(existing, k, v)` loop: update
exactly the keys present in the dict, in order; later duplicates win. -/
def setFields (f : ListingField → FieldVal)
    (items : List (ListingField × FieldVal)) : ListingField → FieldVal :=
  items.foldl (fun acc kv => fun k => if k = kv.1 then kv.2 else acc k) f

/-- Embeds `upsert_listing(session, data)`: a payload without a truthy `rew_url`
is a no-op; otherwise the row with that URL (if any) gets every payload key
written onto it (the dict's `rew_url` entry rewrites the key column with
the very value it was matched on, a no-op); if no row matches, a fresh row
`RewListing(**data)` is inserted, with columns absent from the dict NULL. -/
def upsert_listing (data : ListingPayload) (table : List ListingRow) :
    List ListingRow :=
  match data.rew_url with
  | none => table
  | some u =>
    if u = "" then table
    else
      match table.find? (fun r => r.rew_url = u) with
      | some _ =>
        table.map (fun r =>
          if r.rew_url = u then { r with fields := setFields r.fields data.items }
          else r)
      | none =>
        table ++ [{ rew_url := u,
                    fields := setFields (fun _ => FieldVal.null) data.items }]

/-! ## `scraper/rew_detail_scraper.py` — `validate_listing_data` -/

/-- Python `str.strip()` on a `String`. -/
def pyStripS (s : String) : String :=
  List.asString (pyStrip s.toList)

/-- Parse a nonempty all-digit string. -/
def parseDigits (cs : List Char) : Option Nat :=
  if cs = [] then none
  else if cs.all Char.isDigit then
    some (cs.foldl (fun acc c => acc * 10 + (c.toNat - 48)) 0)
  else none

/-- Python `int(s)` on a string: surrounding whitespace allowed, optional
sign, then decimal digits; anything else raises (here: `none`). -/
def pyIntOfString (s : String) : Option Int :=
  match pyStrip s.toList with
  | '+' :: rest => (parseDigits rest).map Int.ofNat
  | '-' :: rest => (parseDigits rest).map (fun n => -(Int.ofNat n))
  | cs => (parseDigits cs).map Int.ofNat

/-- The value found under `price_cad` in the scraped dict: the parser
yields either a number or a numeric-looking string. -/
inductive PriceVal where
  | int (n : Int)
  | str (s : String)
  deriving DecidableEq, Repr

/-- Python `int(price)` over the modelled value domain. -/
def pyInt : PriceVal → Option Int
  | PriceVal.int n => some n
  | PriceVal.str s => pyIntOfString s

/-- The fields of the scraped dict that `validate_listing_data` reads.
`none` covers both an absent key and an explicit `None` value, which
`data.get` makes indistinguishable here. -/
structure ScrapedListing where
  rew_url : Option String
  street_address : Option String
  city : Option String
  price_cad : Option PriceVal
  deriving DecidableEq, Repr

/-- The `try`-block of `validate_listing_data`: `None` raises, `int(price)`
must succeed and be strictly positive; on success the parsed value. -/
def parsePositivePrice : Option PriceVal → Option Int
  | none => none
  | some v =>
    match pyInt v with
    | none => none
    | some n => if n ≤ 0 then none else some n

/-- Embeds `validate_listing_data(data)`: collect the missing/invalid required
fields in order; raise listing them if any, otherwise return the data with
`price_cad` normalized to the parsed integer. -/
def validate_listing_data (d : ScrapedListing) : Except String ScrapedListing :=
  let missing₁ : List String :=
    if pyStripS (d.rew_url.getD "") = "" then ["rew_url"] else []
  let missing₂ :=
    missing₁ ++ (if pyStripS (d.street_address.getD "") = ""
                 then ["street_address"] else [])
  let missing₃ :=
    missing₂ ++ (if pyStripS (d.city.getD "") = "" then ["city"] else [])
  let priceVal : Option Int := parsePositivePrice d.price_cad
  let missing₄ :=
    missing₃ ++ (match priceVal with
                 | none => ["price_cad"]
                 | some _ => [])
  if missing₄ = [] then
    Except.ok { d with price_cad := priceVal.map PriceVal.int }
  else
    Except.error
      ("Missing or invalid required fields: " ++ String.intercalate ", " missing₄)

/-- Whether validation raised. -/
def isValidationError : Except String ScrapedListing → Bool
  | Except.error _ => true
  | Except.ok _ => false

/-- Modelled from the spec sentence of the claim, for comparison with the
code: some required field among source URL, street address, city, price is
missing or empty after trimming, or the price does not parse to a strictly
positive integer. -/
def spec_invalid_listing (d : ScrapedListing) : Bool :=
  pyStripS (d.rew_url.getD "") = "" ||
  pyStripS (d.street_address.getD "") = "" ||
  pyStripS (d.city.getD "") = "" ||
  (match d.price_cad with
   | none => true
   | some v =>
     match pyInt v with
     | none => true
     | some n => decide (n ≤ 0))

/-! ## `scraper/rew_discover_all.py` -/

/-- Embeds `MAX_RETRIES_PER_PAGE = 3`. -/
def MAX_RETRIES_PER_PAGE : Nat := 3

/-- Embeds `MAX_CONSECUTIVE_FAILED_PAGES = 3`. -/
def MAX_CONSECUTIVE_FAILED_PAGES : Nat := 3

/-- Embeds `fetch_page_with_retries`: try attempts `attempt, attempt+1, …` until
one succeeds or the remaining-attempt budget is exhausted (sleeps and
backoff timing are not modelled; `tryFetch a` is attempt `a`'s outcome). -/
def retryFetch (tryFetch : Nat → Option String) :
    Nat → Nat → Option String
  | _, 0 => none
  | attempt, remaining + 1 =>
    match tryFetch attempt with
    | some html => some html
    | none => retryFetch tryFetch (attempt + 1) remaining

/-- Embeds `fetch_page_with_retries(crawler, url, run_config)`: up to
`MAX_RETRIES_PER_PAGE` attempts starting at attempt 1. -/
def fetch_page_with_retries (tryFetch : Nat → Option String) : Option String :=
  retryFetch tryFetch 1 MAX_RETRIES_PER_PAGE

/-- Python-set insertion for `listing_urls.update(page_urls)`. -/
def insertAbsent (acc : List String) (found : List String) : List String :=
  found.foldl (fun a u => if a.contains u then a else a ++ [u]) acc

/-- The `while True` body of `discover_all`.  `fetchPage p` abstracts
`fetch_page_with_retries` composed with candidate extraction for page `p`:
`none` when the fetch produced no content after its retries, `some urls`
when the page was fetched and yielded the candidate URLs `urls`.  `fuel`
bounds the number of iterations; `none` means the loop did not terminate
within the fuel.  On normal termination the result carries the trace of
pages actually fetched and the accumulated unique URLs. -/
def discover_run (fetchPage : Nat → Option (List String)) :
    Nat → Nat → Nat → List Nat → List String →
    Option (List Nat × List String)
  | 0, _, _, _, _ => none
  | fuel + 1, page, consec, trace, urls =>
    match fetchPage page with
    | none =>
      if consec + 1 ≥ MAX_CONSECUTIVE_FAILED_PAGES then
        some (trace ++ [page], urls)
      else
        discover_run fetchPage fuel (page + 1) (consec + 1) (trace ++ [page]) urls
    | some found =>
      if found = [] then some (trace ++ [page], urls)
      else
        discover_run fetchPage fuel (page + 1) 0 (trace ++ [page])
          (insertAbsent urls found)

/-- Embeds `discover_all()` up to the enqueue step: walk pages from page 1 with a
zeroed failure counter. -/
def discover_all (fetchPage : Nat → Option (List String)) (fuel : Nat) :
    Option (List Nat × List String) :=
  discover_run fetchPage fuel 1 0 [] []

/-! ## `webapp/app.py` — reconciliation engine -/

/-- Embeds `PREFERRED_ASSESSMENT_SOURCES`. -/
def PREFERRED_ASSESSMENT_SOURCES : List String := ["bc_assessment", "rew_graphql"]

/-- Embeds `PREFERRED_SALE_SOURCES`. -/
def PREFERRED_SALE_SOURCES : List String := ["land_title", "mls", "rew_graphql"]

/-- Embeds `_pick_primary_source(source, preferred)`: index in the preference
list, or its length when the source is unlisted. -/
def pick_primary_source (source : String) : List String → Nat
  | [] => 0
  | p :: rest =>
    if p = source then 0 else pick_primary_source source rest + 1

/-- Embeds `sorted(rows, key=rank)[0]` for a nonempty `best :: rest`: Python's
sort is stable, so the head of the sorted list is the first element
attaining the minimal rank. -/
def firstMinBy {α : Type} (rank : α → Nat) : α → List α → α
  | best, [] => best
  | best, r :: rest =>
    if rank r < rank best then firstMinBy rank r rest
    else firstMinBy rank best rest

/-- Keys of a `defaultdict` grouping in first-appearance (insertion)
order, which is the order `dict.items()` iterates. -/
def firstAppearanceKeys {α κ : Type} [DecidableEq κ] (key : α → κ)
    (l : List α) : List κ :=
  l.foldl (fun acc x => if key x ∈ acc then acc else acc ++ [key x]) []

/-- Stable insertion into a list sorted descending by `key`: the new
element goes after every element with a greater-or-equal key. -/
def insertDescBy {α : Type} (key : α → Int) (x : α) : List α → List α
  | [] => [x]
  | y :: ys => if key y < key x then x :: y :: ys else y :: insertDescBy key x ys

/-- Embeds `list.sort(key=…, reverse=True)`: stable descending sort. -/
def sortDescBy {α : Type} (key : α → Int) (l : List α) : List α :=
  l.foldl (fun acc x => insertDescBy key x acc) []

/-- Row of the `assessments` table (the columns `merge_assessments`
reads; `total_assessed_cad` is NOT NULL, nullable columns are `Option`). -/
structure Assessment where
  assessment_year : Int
  total_assessed_cad : Int
  land_value : Option Int
  building_value : Option Int
  source : String
  deriving DecidableEq, Repr

/-- One merged assessment record as built by `merge_assessments`
(percent change modelled as an exact rational). -/
structure MergedAssessment where
  assessment_year : Int
  total_assessed_cad : Int
  land_value : Option Int
  building_value : Option Int
  primary_source : String
  all_sources : List String
  change_pct : Option Rat
  deriving DecidableEq, Repr

/-- Build the merged record for one year group (no group is empty, so the
`[]` case never fires on reachable inputs). -/
def mergeYear (year : Int) (rows : List Assessment) : Option MergedAssessment :=
  match rows with
  | [] => none
  | r :: rest =>
    let primary := firstMinBy
      (fun a => pick_primary_source a.source PREFERRED_ASSESSMENT_SOURCES) r rest
    some { assessment_year := year,
           total_assessed_cad := primary.total_assessed_cad,
           land_value := primary.land_value,
           building_value := primary.building_value,
           primary_source := primary.source,
           all_sources := (r :: rest).map (fun a => a.source),
           change_pct := none }

/-- The final loop of `merge_assessments`: walk the rows in their sorted
(year-descending) order keeping `previous` as the row emitted just before;
when `previous` exists and its total is truthy (nonzero), set the current
row's `change_pct` from it. -/
def computeChanges : Option MergedAssessment → List MergedAssessment →
    List MergedAssessment
  | _, [] => []
  | prev, r :: rs =>
    let r₂ :=
      match prev with
      | none => r
      | some p =>
        if p.total_assessed_cad ≠ 0 then
          let delta : Rat := (r.total_assessed_cad : Rat) - (p.total_assessed_cad : Rat)
          { r with change_pct := some ((delta / (p.total_assessed_cad : Rat)) * 100) }
        else r
    r₂ :: computeChanges (some r₂) rs

/-- Embeds `merge_assessments(assessments)`: group by year (insertion order),
pick each year's primary by source preference, sort the merged records by
year descending, then run the `previous`-pointer percent-change loop. -/
def merge_assessments (assessments : List Assessment) : List MergedAssessment :=
  let years := firstAppearanceKeys (fun a => a.assessment_year) assessments
  let merged := years.filterMap (fun y =>
    mergeYear y (assessments.filter (fun a => a.assessment_year = y)))
  computeChanges none (sortDescBy (fun r => r.assessment_year) merged)

/-- Row of the `sales` table (the columns `merge_sales` reads; dates are
modelled as integer ordinals, which preserves their ordering). -/
structure Sale where
  sale_date : Int
  sale_price_cad : Int
  source : String
  beds : Option Rat
  baths : Option Rat
  sqft : Option Int
  deriving DecidableEq, Repr

/-- One merged sale record as built by `merge_sales`. -/
structure MergedSale where
  sale_date : Int
  sale_price_cad : Int
  price_per_sqft : Option Rat
  beds : Option Rat
  baths : Option Rat
  sqft : Option Int
  primary_source : String
  all_sources : List String
  deriving DecidableEq, Repr

/-- The Python truthiness chain
`if primary.sale_price_cad and primary.sqft and primary.sqft > 0`. -/
def salePricePerSqft (primary : Sale) : Option Rat :=
  if primary.sale_price_cad ≠ 0 then
    match primary.sqft with
    | none => none
    | some n =>
      if n ≠ 0 then
        if n > 0 then some ((primary.sale_price_cad : Rat) / (n : Rat))
        else none
      else none
  else none

/-- Build the merged record for one `(date, price)` cluster. -/
def mergeCluster (d p : Int) (rows : List Sale) : Option MergedSale :=
  match rows with
  | [] => none
  | r :: rest =>
    let primary := firstMinBy
      (fun s => pick_primary_source s.source PREFERRED_SALE_SOURCES) r rest
    some { sale_date := d,
           sale_price_cad := p,
           price_per_sqft := salePricePerSqft primary,
           beds := primary.beds,
           baths := primary.baths,
           sqft := primary.sqft,
           primary_source := primary.source,
           all_sources := (r :: rest).map (fun s => s.source) }

/-- Embeds `merge_sales(sales)`: cluster by the exact `(sale_date,
sale_price_cad)` key (insertion order), pick each cluster's primary by the
sale-source preference, and sort merged rows by date descending. -/
def merge_sales (sales : List Sale) : List MergedSale :=
  match sales with
  | [] => []
  | _ :: _ =>
    let keys := firstAppearanceKeys
      (fun s => (s.sale_date, s.sale_price_cad)) sales
    let merged := keys.filterMap (fun k =>
      mergeCluster k.1 k.2
        (sales.filter (fun s => (s.sale_date, s.sale_price_cad) = k)))
    sortDescBy (fun r => r.sale_date) merged

/-! ## Concrete inputs used by the claims -/

/-- The spec's worked `merge_assessments` example:
(2022, bc_assessment, 500000), (2022, rew_graphql, 480000),
(2023, bc_assessment, 520000). -/
def specExampleAssessments : List Assessment :=
  [{ assessment_year := 2022, total_assessed_cad := 500000,
     land_value := none, building_value := none, source := "bc_assessment" },
   { assessment_year := 2022, total_assessed_cad := 480000,
     land_value := none, building_value := none, source := "rew_graphql" },
   { assessment_year := 2023, total_assessed_cad := 520000,
     land_value := none, building_value := none, source := "bc_assessment" }]

/-- The spec's worked `merge_sales` example: two rows sharing
(2021-05-01, 900000) from sources mls and rew_graphql. -/
def specExampleSales : List Sale :=
  [{ sale_date := 20210501, sale_price_cad := 900000, source := "mls",
     beds := none, baths := none, sqft := none },
   { sale_date := 20210501, sale_price_cad := 900000, source := "rew_graphql",
     beds := none, baths := none, sqft := none }]

/-- A one-row queue with an item mid-scrape on its third attempt. -/
def c3Queue : List QueueItem :=
  [{ id := 1, url := "u", status := QStatus.scraping, attempts := 2,
     last_error := none }]

/-- Three pending items, for exercising the batch claim. -/
def c2Queue : List QueueItem :=
  [{ id := 1, url := "a", status := QStatus.pending, attempts := 0,
     last_error := none },
   { id := 2, url := "b", status := QStatus.pending, attempts := 0,
     last_error := none },
   { id := 3, url := "c", status := QStatus.pending, attempts := 0,
     last_error := none }]

/-- A queue whose single item has exhausted its five attempts in error. -/
def c7Queue : List QueueItem :=
  [{ id := 1, url := "u", status := QStatus.error, attempts := 5,
     last_error := some "boom" }]

/-- Scripted fetcher: pages 1–3 fail (after their per-page retries),
page 4 and beyond would succeed with one candidate URL. -/
def c8Fetcher : Nat → Option (List String) :=
  fun p => if p ≤ 3 then none else some ["u4"]

/-- An existing listing row whose only set scalar is `price_cad = 1`. -/
def c4Row : ListingRow :=
  { rew_url := "u",
    fields := fun f => if f = ListingField.price_cad then FieldVal.int 1
                       else FieldVal.null }

/-- A re-upsert payload for the same URL that leaves every scalar unset. -/
def c4Payload : ListingPayload :=
  { rew_url := some "u", items := [] }

/-- A stored Property whose canonical key is the normalization of
(123 Main St., Vancouver, BC) and whose coordinates are (1, 2). -/
def c10Row : PropertyRow :=
  { id := 1, street_address := String.toList "123 Main St.",
    city := String.toList "Vancouver", province := String.toList "BC",
    postal_code := none, lat := some 1, lng := some 2,
    canonical_address :=
      normalize_address (String.toList "123 Main St.")
        (String.toList "Vancouver") (String.toList "BC") none }

/-- A property store holding just `c10Row`. -/
def c10Db : List PropertyRow :=
  [c10Row]

end RealEstate

namespace RealEstate

/-! ## Helper lemmas -/

/-- Relation `listEquivB` forces equal images under the cleanup map. -/
theorem listEquivB_map_eq :
    ∀ as bs : List Char, listEquivB as bs = true →
      (as.map lowerChar).map punctToSpace = (bs.map lowerChar).map punctToSpace := by
  intro as
  induction as with
  | nil =>
    intro bs h
    cases bs with
    | nil => rfl
    | cons b bs => simp [listEquivB] at h
  | cons a as ih =>
    intro bs h
    cases bs with
    | nil => simp [listEquivB] at h
    | cons b bs =>
      simp only [listEquivB, Bool.and_eq_true] at h
      have hc : punctToSpace (lowerChar a) = punctToSpace (lowerChar b) := by
        have := h.1
        simpa [charEquivB] using this
      simp [List.map_cons, hc, ih bs h.2]

/-- Relation `listEquivB` forces equal emptiness. -/
theorem listEquivB_nil_iff :
    ∀ as bs : List Char, listEquivB as bs = true → (as = [] ↔ bs = []) := by
  intro as bs h
  cases as with
  | nil => cases bs with
    | nil => simp
    | cons b bs => simp [listEquivB] at h
  | cons a as => cases bs with
    | nil => simp [listEquivB] at h
    | cons b bs => simp

/-- Function `norm` is invariant under pointwise cleanup equivalence. -/
theorem norm_congr_of_listEquivB (as bs : List Char)
    (h : listEquivB as bs = true) : norm as = norm bs := by
  unfold norm
  have hmap := listEquivB_map_eq as bs h
  have hnil := listEquivB_nil_iff as bs h
  by_cases ha : as = []
  · have hb : bs = [] := hnil.mp ha
    simp [ha, hb]
  · have hb : bs ≠ [] := fun hbb => ha (hnil.mpr hbb)
    simp [ha, hb, hmap]

/-- Lookup `find?` by id commutes with mapping an id-preserving row transform. -/
theorem findItem_map_of_id (f : QueueItem → QueueItem)
    (hf : ∀ it, (f it).id = it.id) (urlId : Nat) :
    ∀ q : List QueueItem, findItem urlId (q.map f) = (findItem urlId q).map f := by
  intro q
  induction q with
  | nil => rfl
  | cons x rest ih =>
    by_cases hx : x.id = urlId
    · simp [findItem, List.find?_cons, hf, hx]
    · simpa [findItem, List.find?_cons, hf, hx] using ih

/-- A found item carries the id it was looked up by. -/
theorem findItem_id (urlId : Nat) (q : List QueueItem) (it : QueueItem)
    (h : findItem urlId q = some it) : it.id = urlId := by
  have := List.find?_some h
  exact of_decide_eq_true this

/-- A found item is a member of the table. -/
theorem findItem_mem (urlId : Nat) (q : List QueueItem) (it : QueueItem)
    (h : findItem urlId q = some it) : it ∈ q :=
  List.mem_of_find?_eq_some h

/-- Operation `enqueue_urls` only appends rows; existing rows are untouched. -/
theorem enqueue_urls_append :
    ∀ (urls : List String) (nextId : Nat) (q : List QueueItem),
      ∃ newRows, enqueue_urls urls nextId q = q ++ newRows := by
  intro urls
  induction urls with
  | nil => exact fun nextId q => ⟨[], by simp [enqueue_urls]⟩
  | cons u rest ih =>
    intro nextId q
    unfold enqueue_urls
    cases hc : (q.map (fun it => it.url)).contains u with
    | true =>
      simp only [if_true]
      exact ih nextId q
    | false =>
      simp only [Bool.false_eq_true, if_false]
      obtain ⟨nr, hnr⟩ := ih (nextId + 1)
        (q ++ [{ id := nextId, url := u, status := QStatus.pending,
                 attempts := 0, last_error := none }])
      refine ⟨{ id := nextId, url := u, status := QStatus.pending,
                attempts := 0, last_error := none } :: nr, ?_⟩
      rw [hnr, List.append_assoc]
      rfl

/-! ## Claim theorems -/

/-- Claim C1. `merge_assessments` groups by year, picks the preference-ranked
primary, and sorts by year descending as claimed — but the percent-change
loop walks the year-DESCENDING list with `previous` holding the row emitted
just before, i.e. the chronologically LATER year.  On the spec's worked
example the 2023 record therefore gets `change_pct = None` and the 2022
record gets (500000−520000)/520000×100 = −50/13 ≈ −3.85, not the claimed
4.0 on the 2023 record with the 2022 (chronologically first) record null. -/
theorem C1_merge_assessments_spec_example_eval :
    (merge_assessments specExampleAssessments).map
        (fun r => (r.assessment_year, r.total_assessed_cad, r.primary_source,
                   r.change_pct))
      = [(2023, 520000, "bc_assessment", (none : Option Rat)),
         (2022, 500000, "bc_assessment", some (-50 / 13 : Rat))] ∧
    ¬ ((merge_assessments specExampleAssessments).map
          (fun r => (r.assessment_year, r.change_pct))
        = [(2023, some (4 : Rat)), (2022, (none : Option Rat))]) := by
  have h : (merge_assessments specExampleAssessments).map
      (fun r => (r.assessment_year, r.total_assessed_cad, r.primary_source,
                 r.change_pct))
      = [(2023, 520000, "bc_assessment", (none : Option Rat)),
         (2022, 500000, "bc_assessment", some (-50 / 13 : Rat))] := by
    norm_num [merge_assessments, firstAppearanceKeys, mergeYear, firstMinBy,
      pick_primary_source, PREFERRED_ASSESSMENT_SOURCES, sortDescBy,
      insertDescBy, computeChanges, specExampleAssessments, List.filter]
  refine ⟨h, fun hbad => ?_⟩
  have h1 : (merge_assessments specExampleAssessments).map
      (fun r => (r.assessment_year, r.change_pct))
      = [(2023, (none : Option Rat)), (2022, some (-50 / 13 : Rat))] := by
    have := congrArg (List.map (fun x : Int × Int × String × Option Rat =>
      (x.1, x.2.2.2))) h
    simpa [List.map_map, Function.comp] using this
  rw [h1] at hbad
  simp at hbad

/-- Claim C5 counterexample. "St. John" and "St John" differ only by a
period, yet normalize to different canonical keys: the period is replaced
by a space (not stripped), leaving a double internal space. -/
theorem C5_normalize_counterexample :
    String.toList "St. John" = String.toList "St" ++ ['.'] ++ String.toList " John" ∧
    String.toList "St John" = String.toList "St" ++ String.toList " John" ∧
    normalize_address (String.toList "St. John") (String.toList "Vancouver")
        (String.toList "BC") none ≠
      normalize_address (String.toList "St John") (String.toList "Vancouver")
        (String.toList "BC") none :=
  ⟨by decide, by decide, by decide⟩

/-- Claim C5 (amended). Address resolution is idempotent under the
normalization actually performed: two inputs whose street, city and
province agree pointwise up to letter case and up to substituting periods
or commas with spaces, and whose postal codes (both absent, or both
nonempty) agree up to internal spaces and the same pointwise equivalence,
compute the same canonical key.  (Deleting punctuation outright can change
the key — see the counterexample.) -/
theorem C5_normalize_amended (s₁ s₂ c₁ c₂ v₁ v₂ : List Char)
    (po₁ po₂ : Option (List Char))
    (hs : listEquivB s₁ s₂ = true) (hc : listEquivB c₁ c₂ = true)
    (hv : listEquivB v₁ v₂ = true)
    (hpo : (po₁ = none ∧ po₂ = none) ∨
      ∃ p₁ p₂, po₁ = some p₁ ∧ po₂ = some p₂ ∧ p₁ ≠ [] ∧ p₂ ≠ [] ∧
        listEquivB (p₁.filter (fun c => c ≠ ' '))
          (p₂.filter (fun c => c ≠ ' ')) = true) :
    normalize_address s₁ c₁ v₁ po₁ = normalize_address s₂ c₂ v₂ po₂ := by
  unfold normalize_address
  rw [norm_congr_of_listEquivB s₁ s₂ hs, norm_congr_of_listEquivB c₁ c₂ hc,
    norm_congr_of_listEquivB v₁ v₂ hv]
  rcases hpo with ⟨h1, h2⟩ | ⟨p₁, p₂, h1, h2, hne₁, hne₂, heq⟩
  · rw [h1, h2]
  · rw [h1, h2]
    simp only [hne₁, hne₂, if_false]
    rw [norm_congr_of_listEquivB _ _ heq]

/-- Witness for C5 (amended): same key for "123 Main St," vs
"123 MAIN ST " with postal codes "V5K 1A1" vs "v5k1a1". -/
theorem C5_normalize_amended_witness :
    normalize_address (String.toList "123 Main St,") (String.toList "Vancouver")
        (String.toList "BC") (some (String.toList "V5K 1A1"))
      = normalize_address (String.toList "123 MAIN ST ")
        (String.toList "vancouver") (String.toList "bc")
        (some (String.toList "v5k1a1")) :=
  C5_normalize_amended _ _ _ _ _ _ _ _ (by decide) (by decide) (by decide)
    (Or.inr ⟨_, _, rfl, rfl, by decide, by decide, by decide⟩)

/-- Claim C10. When the computed canonical key matches an existing Property,
`get_or_create_property` returns that row and performs no write: the store
is returned unchanged, so every stored field — `lat` and `lng` included —
survives even though the call supplied (possibly different) coordinates. -/
theorem C10_get_or_create_no_write_on_match (db : List PropertyRow)
    (nextId : Nat) (street city province : List Char)
    (postal : Option (List Char)) (lat lng : Option Rat) (p : PropertyRow)
    (h : db.find? (fun r =>
        r.canonical_address = normalize_address street city province postal)
      = some p) :
    get_or_create_property db nextId street city province postal lat lng
      = (p, db) := by
  simp only [get_or_create_property]
  rw [h]

/-- Witness for C10: resolving (123 Main St., Vancouver, BC) with fresh
coordinates (7, 8) against a store whose row has coordinates (1, 2) returns
that row and the untouched store. -/
theorem C10_get_or_create_no_write_on_match_witness :
    get_or_create_property c10Db 99 (String.toList "123 Main St.")
        (String.toList "Vancouver") (String.toList "BC") none
        (some 7) (some 8)
      = (c10Row, c10Db) :=
  C10_get_or_create_no_write_on_match c10Db 99 _ _ _ none (some 7) (some 8)
    c10Row (by decide)

/-- Claim C3 counterexample. `mark_failed` on a `scraping` item with
`attempts = 2` produces `attempts = 2`, not the claimed `attempts = 3`:
the SQL updates only `status` and `last_error`. -/
theorem C3_mark_failed_counterexample :
    mark_failed 1 "boom" c3Queue
      = [{ id := 1, url := "u", status := QStatus.error, attempts := 2,
           last_error := some "boom" }] ∧
    mark_failed 1 "boom" c3Queue
      ≠ [{ id := 1, url := "u", status := QStatus.error, attempts := 3,
           last_error := some "boom" }] :=
  ⟨by decide, by decide⟩

/-- Claim C3 (amended). `mark_failed` on a queue item in status `scraping`
transitions it to `error` and records the failure message in `last_error`,
leaving the `attempts` counter unchanged (the counter is incremented by the
batch-claim operation instead). -/
theorem C3_mark_failed_amended (q : List QueueItem) (urlId : Nat)
    (msg : String) (it : QueueItem) (h : findItem urlId q = some it)
    (_hs : it.status = QStatus.scraping) :
    findItem urlId (mark_failed urlId msg q)
      = some { it with status := QStatus.error, last_error := some msg } := by
  have hid : ∀ x : QueueItem,
      ((if x.id = urlId then
          { x with status := QStatus.error, last_error := some msg }
        else x).id) = x.id := by
    intro x
    by_cases hx : x.id = urlId <;> simp [hx]
  have hmap := findItem_map_of_id
    (fun x => if x.id = urlId then
        { x with status := QStatus.error, last_error := some msg }
      else x) hid urlId q
  have hi := findItem_id urlId q it h
  unfold mark_failed
  rw [hmap, h]
  simp [hi]

/-- Witness for C3 (amended): the scraping item of `c3Queue` ends in
`error` with its message recorded and `attempts` still 2. -/
theorem C3_mark_failed_amended_witness :
    findItem 1 (mark_failed 1 "boom" c3Queue)
      = some { id := 1, url := "u", status := QStatus.error, attempts := 2,
               last_error := some "boom" } :=
  C3_mark_failed_amended c3Queue 1 "boom"
    { id := 1, url := "u", status := QStatus.scraping, attempts := 2,
      last_error := none } (by decide) rfl

/-- Claim C8. The discovery loop halts once the consecutive-failure counter
reaches `MAX_CONSECUTIVE_FAILED_PAGES = 3`: with a fetcher scripted to fail
pages 1–3 and succeed from page 4 on, the run stops having fetched exactly
pages 1, 2, 3 (page 4 is never fetched); a failing page at the threshold
halts immediately; and any successfully fetched page with candidates
continues with the consecutive-failure counter reset to zero. -/
theorem C8_discovery_circuit_breaker :
    discover_all c8Fetcher 10 = some ([1, 2, 3], []) ∧
    (∀ (f : Nat → Option (List String)) (fuel page consec : Nat)
        (trace : List Nat) (urls : List String),
      f page = none → MAX_CONSECUTIVE_FAILED_PAGES ≤ consec + 1 →
      discover_run f (fuel + 1) page consec trace urls
        = some (trace ++ [page], urls)) ∧
    (∀ (f : Nat → Option (List String)) (fuel page consec : Nat)
        (trace : List Nat) (urls : List String) (found : List String),
      f page = some found → found ≠ [] →
      discover_run f (fuel + 1) page consec trace urls
        = discover_run f fuel (page + 1) 0 (trace ++ [page])
            (insertAbsent urls found)) := by
  refine ⟨by decide, ?_, ?_⟩
  · intro f fuel page consec trace urls hf hth
    simp [discover_run, hf, hth]
  · intro f fuel page consec trace urls found hf hfound
    simp [discover_run, hf, hfound]

/-- Witness for C8: a fetcher succeeding on page 5 continues from page 6
with the counter reset to 0, and a third consecutive failure on page 3
halts the run. -/
theorem C8_discovery_circuit_breaker_witness :
    discover_run (fun _ => some ["u"]) 1 5 2 [] []
      = discover_run (fun _ => some ["u"]) 0 6 0 [5] (insertAbsent [] ["u"]) ∧
    discover_run (fun _ => none) 7 3 2 [1, 2] []
      = some ([1, 2, 3], []) :=
  ⟨C8_discovery_circuit_breaker.2.2 (fun _ => some ["u"]) 0 5 2 [] [] ["u"]
      rfl (by decide),
   C8_discovery_circuit_breaker.2.1 (fun _ => none) 6 3 2 [1, 2] [] rfl
      (by decide)⟩

/-- Claim C9. Validation raises exactly when a required field among
source URL, street address, city is empty after trimming or the price does
not parse to a strictly positive integer; in particular `price = 0` and
`price = "abc"` are rejected whatever the other fields hold, and a listing
with all four required fields valid is accepted. -/
theorem C9_validation_iff :
    (∀ d : ScrapedListing,
      isValidationError (validate_listing_data d) = spec_invalid_listing d) ∧
    (∀ u s c : Option String,
      isValidationError (validate_listing_data
        { rew_url := u, street_address := s, city := c,
          price_cad := some (PriceVal.int 0) }) = true ∧
      isValidationError (validate_listing_data
        { rew_url := u, street_address := s, city := c,
          price_cad := some (PriceVal.str "abc") }) = true) ∧
    isValidationError (validate_listing_data
      { rew_url := some "rew-url-1", street_address := some "123 Main St",
        city := some "Vancouver", price_cad := some (PriceVal.str "450000") })
      = false := by
  have hmain : ∀ d : ScrapedListing,
      isValidationError (validate_listing_data d) = spec_invalid_listing d := by
    intro d
    have hprice : (match d.price_cad with
        | none => true
        | some v => match pyInt v with
          | none => true
          | some n => decide (n ≤ 0)) = (parsePositivePrice d.price_cad).isNone := by
      rcases d.price_cad with _ | v
      · rfl
      · simp only [parsePositivePrice]
        rcases hv : pyInt v with _ | n
        · rfl
        · by_cases hn : n ≤ 0 <;> simp [hn]
    simp only [validate_listing_data, isValidationError, spec_invalid_listing,
      hprice]
    by_cases h1 : pyStripS (d.rew_url.getD "") = "" <;>
      by_cases h2 : pyStripS (d.street_address.getD "") = "" <;>
        by_cases h3 : pyStripS (d.city.getD "") = "" <;>
          rcases hp : parsePositivePrice d.price_cad with _ | n <;>
            simp [h1, h2, h3, hp]
  refine ⟨hmain, ?_, by decide⟩
  intro u s c
  constructor
  · rw [hmain]
    simp [spec_invalid_listing, pyInt]
  · rw [hmain]
    have habc : pyInt (PriceVal.str "abc") = none := by decide
    simp [spec_invalid_listing, habc]

/-- Every item the claim query selects satisfies the eligibility filter. -/
theorem mem_takeEligible_eligible :
    ∀ (q : List QueueItem) (n : Nat) (it : QueueItem),
      it ∈ takeEligible n q → eligible it = true := by
  intro q
  induction q with
  | nil =>
    intro n it h
    cases n <;> simp [takeEligible] at h
  | cons x rest ih =>
    intro n it h
    cases n with
    | zero => simp [takeEligible] at h
    | succ m =>
      by_cases he : eligible x
      · rw [takeEligible, if_pos he] at h
        rcases List.mem_cons.mp h with rfl | hmem
        · exact he
        · exact ih m it hmem
      · rw [takeEligible, if_neg he] at h
        exact ih (m + 1) it h

/-- Every item the claim query selects comes from the table. -/
theorem mem_of_mem_takeEligible :
    ∀ (q : List QueueItem) (n : Nat) (it : QueueItem),
      it ∈ takeEligible n q → it ∈ q := by
  intro q
  induction q with
  | nil =>
    intro n it h
    cases n <;> simp [takeEligible] at h
  | cons x rest ih =>
    intro n it h
    cases n with
    | zero => simp [takeEligible] at h
    | succ m =>
      by_cases he : eligible x
      · rw [takeEligible, if_pos he] at h
        rcases List.mem_cons.mp h with rfl | hmem
        · exact List.mem_cons.mpr (Or.inl rfl)
        · exact List.mem_cons_of_mem x (ih m it hmem)
      · rw [takeEligible, if_neg he] at h
        exact List.mem_cons_of_mem x (ih (m + 1) it h)

/-- An exhausted item — not `pending`, with `attempts` at the cap — fails
the eligibility filter. -/
theorem eligible_false_of_dead (it : QueueItem)
    (hs : it.status ≠ QStatus.pending) (ha : MAX_SCRAPE_ATTEMPTS ≤ it.attempts) :
    eligible it = false := by
  simp only [eligible, decide_eq_false_iff_not, Bool.decide_or,
    Bool.or_eq_false_iff, decide_eq_false_iff_not, Bool.decide_and,
    Bool.and_eq_false_iff]
  constructor
  · exact hs
  · right
    simpa using Nat.not_lt.mpr ha

/-- Lookup `find?` by id is unaffected by rows appended after a hit. -/
theorem findItem_append_left (urlId : Nat) :
    ∀ (q r : List QueueItem) (it : QueueItem),
      findItem urlId q = some it → findItem urlId (q ++ r) = some it := by
  intro q r
  induction q with
  | nil => intro it h; simp [findItem] at h
  | cons x rest ih =>
    intro it h
    by_cases hx : x.id = urlId
    · simp only [findItem, List.cons_append, List.find?_cons, hx] at h ⊢
      simpa using h
    · have hd : decide (x.id = urlId) = false := by simpa using hx
      simp only [findItem, List.cons_append, List.find?_cons, hd] at h ⊢
      exact ih it h

/-- Each queue operation preserves "not pending and at the attempts cap"
for the row a lookup finds, and keeps the row findable. -/
theorem applyOp_preserves_dead (op : QueueOp) (q : List QueueItem)
    (i : Nat) (it : QueueItem) (h : findItem i q = some it)
    (hs : it.status ≠ QStatus.pending) (ha : MAX_SCRAPE_ATTEMPTS ≤ it.attempts) :
    ∃ it₂, findItem i (applyOp op q) = some it₂ ∧
      it₂.status ≠ QStatus.pending ∧ MAX_SCRAPE_ATTEMPTS ≤ it₂.attempts := by
  cases op with
  | enqueue urls nextId =>
    obtain ⟨nr, hnr⟩ := enqueue_urls_append urls nextId q
    refine ⟨it, ?_, hs, ha⟩
    simp only [applyOp, hnr]
    exact findItem_append_left i q nr it h
  | claim n =>
    simp only [applyOp, dequeue_next_batch]
    set pickedIds := (takeEligible n q).map (fun it => it.id) with hp
    have hid : ∀ x : QueueItem,
        ((if x.id ∈ pickedIds then claimItem x else x).id) = x.id := by
      intro x
      by_cases hx : x.id ∈ pickedIds <;> simp [hx, claimItem]
    rw [findItem_map_of_id _ hid i q, h]
    by_cases hin : it.id ∈ pickedIds
    · exact ⟨claimItem it, by simp [hin], by simp [claimItem], by
        simp only [claimItem]
        omega⟩
    · exact ⟨it, by simp [hin], hs, ha⟩
  | markDone urlId =>
    simp only [applyOp, mark_done]
    have hid : ∀ x : QueueItem,
        ((if x.id = urlId then { x with status := QStatus.done } else x).id) = x.id := by
      intro x
      by_cases hx : x.id = urlId <;> simp [hx]
    rw [findItem_map_of_id _ hid i q, h]
    by_cases hin : it.id = urlId
    · exact ⟨{ it with status := QStatus.done }, by simp [hin], by simp, ha⟩
    · exact ⟨it, by simp [hin], hs, ha⟩
  | markFailed urlId msg =>
    simp only [applyOp, mark_failed]
    have hid : ∀ x : QueueItem,
        ((if x.id = urlId then
            { x with status := QStatus.error, last_error := some msg }
          else x).id) = x.id := by
      intro x
      by_cases hx : x.id = urlId <;> simp [hx]
    rw [findItem_map_of_id _ hid i q, h]
    by_cases hin : it.id = urlId
    · exact ⟨{ it with status := QStatus.error, last_error := some msg },
        by simp [hin], by simp, ha⟩
    · exact ⟨it, by simp [hin], hs, ha⟩

/-- Any sequence of queue operations preserves the exhausted state. -/
theorem applyOps_preserves_dead :
    ∀ (ops : List QueueOp) (q : List QueueItem) (i : Nat) (it : QueueItem),
      findItem i q = some it → it.status ≠ QStatus.pending →
      MAX_SCRAPE_ATTEMPTS ≤ it.attempts →
      ∃ it₂, findItem i (applyOps ops q) = some it₂ ∧
        it₂.status ≠ QStatus.pending ∧ MAX_SCRAPE_ATTEMPTS ≤ it₂.attempts := by
  intro ops
  induction ops with
  | nil => exact fun q i it h hs ha => ⟨it, h, hs, ha⟩
  | cons op rest ih =>
    intro q i it h hs ha
    obtain ⟨it₂, h₂, hs₂, ha₂⟩ := applyOp_preserves_dead op q i it h hs ha
    simpa [applyOps, List.foldl_cons] using ih (applyOp op q) i it₂ h₂ hs₂ ha₂

/-- Claim C7. The `attempts` counter never decreases under any queue
operation; the claim query admits only rows that are `pending` or `error`
with `attempts` strictly below `MAX_SCRAPE_ATTEMPTS`; and an item left in
`error` at the attempts cap — the state after being claimed and marked
failed five times — is never returned by any later batch claim, whatever
queue operations happen in between (given the table's ids stay unique). -/
theorem C7_attempts_monotone_and_cap :
    (∀ (op : QueueOp) (q : List QueueItem) (i : Nat) (it it₂ : QueueItem),
      findItem i q = some it → findItem i (applyOp op q) = some it₂ →
      it.attempts ≤ it₂.attempts) ∧
    (∀ (q : List QueueItem) (n : Nat) (it : QueueItem),
      it ∈ takeEligible n q →
      it.status = QStatus.pending ∨
        (it.status = QStatus.error ∧ it.attempts < MAX_SCRAPE_ATTEMPTS)) ∧
    (∀ (ops : List QueueOp) (q : List QueueItem) (i : Nat) (it : QueueItem),
      findItem i q = some it → it.status = QStatus.error →
      MAX_SCRAPE_ATTEMPTS ≤ it.attempts →
      (((applyOps ops q).map (fun x => x.id)).Nodup) →
      ∀ n, i ∉ (dequeue_next_batch n (applyOps ops q)).1) := by
  refine ⟨?_, ?_, ?_⟩
  · intro op q i it it₂ h h₂
    cases op with
    | enqueue urls nextId =>
      obtain ⟨nr, hnr⟩ := enqueue_urls_append urls nextId q
      rw [applyOp, hnr, findItem_append_left i q nr it h] at h₂
      cases h₂
      exact Nat.le_refl _
    | claim n =>
      simp only [applyOp, dequeue_next_batch] at h₂
      set pickedIds := (takeEligible n q).map (fun it => it.id) with hp
      have hid : ∀ x : QueueItem,
          ((if x.id ∈ pickedIds then claimItem x else x).id) = x.id := by
        intro x
        by_cases hx : x.id ∈ pickedIds <;> simp [hx, claimItem]
      rw [findItem_map_of_id _ hid i q, h] at h₂
      cases h₂
      by_cases hin : it.id ∈ pickedIds <;> simp [hin, claimItem]
    | markDone urlId =>
      simp only [applyOp, mark_done] at h₂
      have hid : ∀ x : QueueItem,
          ((if x.id = urlId then { x with status := QStatus.done } else x).id) = x.id := by
        intro x
        by_cases hx : x.id = urlId <;> simp [hx]
      rw [findItem_map_of_id _ hid i q, h] at h₂
      cases h₂
      by_cases hin : it.id = urlId <;> simp [hin]
    | markFailed urlId msg =>
      simp only [applyOp, mark_failed] at h₂
      have hid : ∀ x : QueueItem,
          ((if x.id = urlId then
              { x with status := QStatus.error, last_error := some msg }
            else x).id) = x.id := by
        intro x
        by_cases hx : x.id = urlId <;> simp [hx]
      rw [findItem_map_of_id _ hid i q, h] at h₂
      cases h₂
      by_cases hin : it.id = urlId <;> simp [hin]
  · intro q n it hmem
    have := mem_takeEligible_eligible q n it hmem
    simpa [eligible, MAX_SCRAPE_ATTEMPTS] using this
  · intro ops q i it h hs ha hnodup n hin
    obtain ⟨it₂, h₂, hs₂, ha₂⟩ := applyOps_preserves_dead ops q i it h
      (by simp [hs]) ha
    simp only [dequeue_next_batch, List.mem_map] at hin
    obtain ⟨p, hpmem, hpid⟩ := hin
    have hpQ : p ∈ applyOps ops q := mem_of_mem_takeEligible _ n p hpmem
    have hitQ : it₂ ∈ applyOps ops q := findItem_mem i _ it₂ h₂
    have hid₂ : it₂.id = i := findItem_id i _ it₂ h₂
    have hpe : p = it₂ :=
      List.inj_on_of_nodup_map hnodup hpQ hitQ (by rw [hpid, hid₂])
    have helig := mem_takeEligible_eligible _ n p hpmem
    rw [hpe, eligible_false_of_dead it₂ hs₂ ha₂] at helig
    cases helig

/-- The claim query's selection is a sublist of the table. -/
theorem takeEligible_sublist :
    ∀ (q : List QueueItem) (n : Nat), List.Sublist (takeEligible n q) q := by
  intro q
  induction q with
  | nil =>
    intro n
    cases n <;> exact List.nil_sublist _
  | cons x rest ih =>
    intro n
    cases n with
    | zero => exact List.nil_sublist _
    | succ m =>
      by_cases he : eligible x
      · rw [takeEligible, if_pos he]
        exact List.Sublist.cons₂ x (ih m)
      · rw [takeEligible, if_neg he]
        exact List.Sublist.cons x (ih (m + 1))

/-- Unfolding of the eligible-row count over a cons. -/
theorem countEligible_cons (x : QueueItem) (q : List QueueItem) :
    countEligible (x :: q)
      = if eligible x then countEligible q + 1 else countEligible q := by
  by_cases he : eligible x <;> simp [countEligible, List.filter_cons, he]

/-- The claim query selects `min n M` rows from a table with `M` eligible
rows. -/
theorem length_takeEligible :
    ∀ (q : List QueueItem) (n : Nat),
      (takeEligible n q).length = min n (countEligible q) := by
  intro q
  induction q with
  | nil =>
    intro n
    cases n <;> simp [takeEligible, countEligible]
  | cons x rest ih =>
    intro n
    cases n with
    | zero => simp [takeEligible]
    | succ m =>
      by_cases he : eligible x
      · rw [takeEligible, if_pos he]
        simp only [List.length_cons, countEligible_cons, he, if_true, ih m]
        omega
      · rw [takeEligible, if_neg he]
        simp only [countEligible_cons, he, Bool.false_eq_true, if_false, ih (m + 1)]

/-- Filtering a duplicate-free table by the ids of one of its sublists
recovers exactly that sublist. -/
theorem filter_ids_of_sublist :
    ∀ (q p : List QueueItem), List.Sublist p q → (q.map (fun it => it.id)).Nodup →
      q.filter (fun it => decide (it.id ∈ p.map (fun x => x.id))) = p := by
  intro q p hsub
  induction hsub with
  | slnil => intro _; rfl
  | @cons l₁ l₂ a hsub ih =>
    intro hnodup
    have hrest : (l₂.map (fun it => it.id)).Nodup :=
      (List.nodup_cons.mp (by simpa using hnodup)).2
    have hahead : a.id ∉ l₂.map (fun it => it.id) :=
      (List.nodup_cons.mp (by simpa using hnodup)).1
    have hin : a.id ∉ l₁.map (fun x => x.id) := by
      intro hmem
      exact hahead ((hsub.map (fun it => it.id)).subset hmem)
    rw [List.filter_cons]
    rw [if_neg (by simpa using hin)]
    exact ih hrest
  | @cons₂ l₁ l₂ a hsub ih =>
    intro hnodup
    have hrest : (l₂.map (fun it => it.id)).Nodup :=
      (List.nodup_cons.mp (by simpa using hnodup)).2
    have hahead : a.id ∉ l₂.map (fun it => it.id) :=
      (List.nodup_cons.mp (by simpa using hnodup)).1
    rw [List.filter_cons]
    rw [if_pos (by simp)]
    have hcongr : ∀ it ∈ l₂,
        (decide (it.id ∈ List.map (fun x => x.id) (a :: l₁)) : Bool)
          = decide (it.id ∈ List.map (fun x => x.id) l₁) := by
      intro it hit
      have hne : it.id ≠ a.id := by
        intro heq
        exact hahead (heq ▸ List.mem_map_of_mem (fun x => x.id) hit)
      simp [List.map_cons, List.mem_cons, hne]
    rw [List.filter_congr hcongr, ih hrest]

/-- A freshly claimed row is never eligible. -/
theorem eligible_claimItem (x : QueueItem) : eligible (claimItem x) = false := by
  simp [eligible, claimItem]

/-- Eligible-row count of the post-claim table, as a filter on the old
table. -/
theorem countEligible_map_claim (ids : List Nat) :
    ∀ q : List QueueItem,
      countEligible (q.map (fun it => if it.id ∈ ids then claimItem it else it))
        = (q.filter (fun it => eligible it && !(decide (it.id ∈ ids)))).length := by
  intro q
  induction q with
  | nil => rfl
  | cons x rest ih =>
    by_cases hx : x.id ∈ ids
    · simp [countEligible_cons, List.filter_cons, hx, eligible_claimItem, ih]
    · by_cases he : eligible x <;>
        simp [countEligible_cons, List.filter_cons, hx, he, ih]

/-- Splitting a filter count along a second predicate. -/
theorem length_filter_split (p r : QueueItem → Bool) :
    ∀ q : List QueueItem,
      (q.filter p).length
        = (q.filter (fun it => p it && r it)).length
          + (q.filter (fun it => p it && !(r it))).length := by
  intro q
  induction q with
  | nil => rfl
  | cons x rest ih =>
    by_cases hp : p x <;> by_cases hr : r x <;>
      simp [List.filter_cons, hp, hr, ih] <;> omega

/-- Everything `dequeue_next_batch` guarantees in one step: the claimed
ids are distinct, exactly `min n M` many, all drawn from eligible rows;
the updated table keeps the same ids, its eligible count drops by the
claimed count, and no row still eligible afterwards carries a claimed id. -/
theorem dequeue_next_batch_spec (n : Nat) (q : List QueueItem)
    (hids : (q.map (fun it => it.id)).Nodup) :
    ((dequeue_next_batch n q).1).Nodup ∧
    (dequeue_next_batch n q).1.length = min n (countEligible q) ∧
    countEligible (dequeue_next_batch n q).2
      = countEligible q - (dequeue_next_batch n q).1.length ∧
    (∀ it ∈ (dequeue_next_batch n q).2, eligible it = true →
      it.id ∉ (dequeue_next_batch n q).1 ∧ it ∈ q) ∧
    ((dequeue_next_batch n q).2.map (fun it => it.id)
      = q.map (fun it => it.id)) ∧
    (∀ i ∈ (dequeue_next_batch n q).1,
      ∃ it ∈ q, it.id = i ∧ eligible it = true) := by
  simp only [dequeue_next_batch]
  set picked := takeEligible n q with hpicked
  set ids := picked.map (fun it => it.id) with hidsdef
  have hsub : List.Sublist picked q := takeEligible_sublist q n
  have hidssub : List.Sublist ids (q.map (fun it => it.id)) := hsub.map _
  have hidsnodup : ids.Nodup := hids.sublist hidssub
  refine ⟨hidsnodup, ?_, ?_, ?_, ?_, ?_⟩
  · rw [hidsdef, List.length_map]
    exact length_takeEligible q n
  · rw [countEligible_map_claim ids q]
    have hsplit := length_filter_split (fun it => eligible it)
      (fun it => decide (it.id ∈ ids)) q
    have hfiltids : q.filter (fun it => decide (it.id ∈ ids)) = picked :=
      filter_ids_of_sublist q picked hsub hids
    have hA : (q.filter (fun it => eligible it && decide (it.id ∈ ids))).length
        = ids.length := by
      have hcomm : q.filter (fun it => eligible it && decide (it.id ∈ ids))
          = (q.filter (fun it => decide (it.id ∈ ids))).filter
              (fun it => eligible it) := by
        rw [List.filter_filter]
      rw [hcomm, hfiltids]
      have : picked.filter (fun it => eligible it) = picked :=
        List.filter_eq_self.mpr (fun it hit =>
          mem_takeEligible_eligible q n it (hpicked ▸ hit))
      rw [this, hidsdef, List.length_map]
    have hcount : countEligible q = (q.filter (fun it => eligible it)).length := rfl
    omega
  · intro it hit helig
    obtain ⟨it₀, hit₀, hupd⟩ := List.mem_map.mp hit
    by_cases hx : it₀.id ∈ ids
    · rw [if_pos hx] at hupd
      rw [← hupd, eligible_claimItem] at helig
      cases helig
    · rw [if_neg hx] at hupd
      subst hupd
      exact ⟨hx, hit₀⟩
  · rw [List.map_map]
    apply List.map_congr_left
    intro it _
    by_cases hx : it.id ∈ ids <;> simp [hx, claimItem]
  · intro i hi
    obtain ⟨it, hit, hid⟩ := List.mem_map.mp hi
    exact ⟨it, mem_of_mem_takeEligible q n it hit, hid,
      mem_takeEligible_eligible q n it hit⟩

/-- Serialized batch claims: across `K` claims the claimed ids stay
distinct, total `min M (n·K)`, and all come from initially eligible rows. -/
theorem claimSeq_spec :
    ∀ (K n : Nat) (q : List QueueItem), (q.map (fun it => it.id)).Nodup →
      ((claimSeq K n q).1.flatten).Nodup ∧
      (claimSeq K n q).1.flatten.length = min (countEligible q) (n * K) ∧
      (∀ i ∈ (claimSeq K n q).1.flatten,
        ∃ it ∈ q, it.id = i ∧ eligible it = true) := by
  intro K
  induction K with
  | zero =>
    intro n q _
    refine ⟨List.nodup_nil, by simp [claimSeq], ?_⟩
    intro i hi
    simp [claimSeq] at hi
  | succ k ih =>
    intro n q hids
    obtain ⟨hnd, hlen, hdrop, hafter, hmapids, hsrc⟩ :=
      dequeue_next_batch_spec n q hids
    have hids₂ : (((dequeue_next_batch n q).2).map (fun it => it.id)).Nodup := by
      rw [hmapids]; exact hids
    obtain ⟨ihnd, ihlen, ihsrc⟩ := ih n (dequeue_next_batch n q).2 hids₂
    have hflat : (claimSeq (k + 1) n q).1.flatten
        = (dequeue_next_batch n q).1
          ++ (claimSeq k n (dequeue_next_batch n q).2).1.flatten := by
      simp [claimSeq]
    have hdisj : ∀ i, i ∈ (dequeue_next_batch n q).1 →
        i ∉ (claimSeq k n (dequeue_next_batch n q).2).1.flatten := by
      intro i hi hrest
      obtain ⟨it, hitmem, hitid, hitelig⟩ := ihsrc i hrest
      exact (hafter it hitmem hitelig).1 (hitid ▸ hi)
    refine ⟨?_, ?_, ?_⟩
    · rw [hflat]
      exact List.Nodup.append hnd ihnd
        (fun i hi hrest => hdisj i hi hrest)
    · rw [hflat, List.length_append, hlen, ihlen, hdrop, hlen, Nat.mul_succ]
      omega
    · rw [hflat]
      intro i hi
      rcases List.mem_append.mp hi with hi₁ | hi₂
      · exact hsrc i hi₁
      · obtain ⟨it, hitmem, hitid, hitelig⟩ := ihsrc i hi₂
        exact ⟨it, (hafter it hitmem hitelig).2, hitid, hitelig⟩

/-- Claim C2. `K` callers each claiming batches of `n` against a table with
`M` eligible rows (ids unique) receive pairwise-disjoint sets whose union
has exactly `min M (n·K)` rows: the claimed ids, concatenated across the
`K` serialized atomic claim transactions, are duplicate-free and number
`min M (n·K)` — no two claimants ever receive the same row. -/
theorem C2_claim_batch_disjoint_union (K n : Nat) (q : List QueueItem)
    (hids : (q.map (fun it => it.id)).Nodup) :
    ((claimSeq K n q).1.flatten).Nodup ∧
    (claimSeq K n q).1.flatten.length = min (countEligible q) (n * K) := by
  obtain ⟨h1, h2, _⟩ := claimSeq_spec K n q hids
  exact ⟨h1, h2⟩

/-- Witness for C2: two claimants with batch size 2 against three pending
rows: claimed ids are distinct and number min(3, 4) = 3. -/
theorem C2_claim_batch_disjoint_union_witness :
    ((claimSeq 2 2 c2Queue).1.flatten).Nodup ∧
    (claimSeq 2 2 c2Queue).1.flatten.length = min (countEligible c2Queue) (2 * 2) :=
  C2_claim_batch_disjoint_union 2 2 c2Queue (by decide)

/-- Claim C4 counterexample. Re-upserting URL "u" with a payload that leaves
every scalar unset keeps the stored `price_cad = 1`: the code writes only
the payload's keys onto the row, so an unset field does NOT end up equal to
the new payload's (absent/NULL) value — not a full scalar replace. -/
theorem C4_upsert_counterexample :
    (upsert_listing c4Payload [c4Row]).map
        (fun r => r.fields ListingField.price_cad) = [FieldVal.int 1] ∧
    c4Payload.items.map Prod.fst = [] ∧
    FieldVal.int 1 ≠ FieldVal.null :=
  ⟨by decide, rfl, by decide⟩

/-- Claim C4 (amended). `upsert_listing` performs a field-level merge, not a
full scalar replace: a payload without a source URL is a no-op; when a row
with the payload's URL exists, exactly the payload's keys are written onto
it and every key absent from the payload keeps its stored value; when no
row matches, a fresh row is inserted whose columns absent from the payload
are NULL. -/
theorem C4_upsert_amended :
    (∀ (data : ListingPayload) (table : List ListingRow),
      data.rew_url = none → upsert_listing data table = table) ∧
    (∀ (data : ListingPayload) (table : List ListingRow) (u : String)
        (r : ListingRow),
      data.rew_url = some u → u ≠ "" →
      table.find? (fun row => row.rew_url = u) = some r →
      upsert_listing data table
        = table.map (fun row =>
            if row.rew_url = u then
              { row with fields := setFields row.fields data.items }
            else row)) ∧
    (∀ (data : ListingPayload) (table : List ListingRow) (u : String),
      data.rew_url = some u → u ≠ "" →
      table.find? (fun row => row.rew_url = u) = none →
      upsert_listing data table
        = table ++ [{ rew_url := u,
                      fields := setFields (fun _ => FieldVal.null) data.items }]) ∧
    (∀ (f : ListingField → FieldVal) (items : List (ListingField × FieldVal))
        (k : ListingField),
      k ∉ items.map Prod.fst → setFields f items k = f k) ∧
    (∀ (items : List (ListingField × FieldVal))
        (f : ListingField → FieldVal) (k : ListingField) (v : FieldVal),
      (items.map Prod.fst).Nodup → (k, v) ∈ items → setFields f items k = v) := by
  have hD : ∀ (items : List (ListingField × FieldVal))
      (f : ListingField → FieldVal) (k : ListingField),
      k ∉ items.map Prod.fst → setFields f items k = f k := by
    intro items
    induction items with
    | nil => intro f k _; rfl
    | cons kv rest ih =>
      intro f k hk
      simp only [List.map_cons, List.mem_cons, not_or] at hk
      have hstep : setFields f (kv :: rest) k
          = setFields (fun k₂ => if k₂ = kv.1 then kv.2 else f k₂) rest k := rfl
      rw [hstep, ih _ k hk.2]
      simp only [hk.1, if_false]
  have hE : ∀ (items : List (ListingField × FieldVal))
      (f : ListingField → FieldVal) (k : ListingField) (v : FieldVal),
      (items.map Prod.fst).Nodup → (k, v) ∈ items → setFields f items k = v := by
    intro items
    induction items with
    | nil => intro f k v _ hmem; simp at hmem
    | cons kv rest ih =>
      intro f k v hnd hmem
      simp only [List.map_cons, List.nodup_cons] at hnd
      have hstep : setFields f (kv :: rest) k
          = setFields (fun k₂ => if k₂ = kv.1 then kv.2 else f k₂) rest k := rfl
      rcases List.mem_cons.mp hmem with heq | hmem₂
      · obtain ⟨hk, hv⟩ := Prod.mk.injEq .. ▸ congrArg id heq
        have hk₁ : k = kv.1 := by rw [← heq]
        have hnotin : k ∉ rest.map Prod.fst := by
          rw [hk₁]; exact hnd.1
        rw [hstep, hD rest _ k hnotin]
        simp only [hk₁, if_true]
        rw [← heq]
      · have hk₁ : k ∈ rest.map Prod.fst :=
          List.mem_map_of_mem Prod.fst hmem₂
        rw [hstep]
        exact ih _ k v hnd.2 hmem₂
  refine ⟨?_, ?_, ?_, fun f items k => hD items f k, hE⟩
  · intro data table h
    simp [upsert_listing, h]
  · intro data table u r h hu hfind
    simp [upsert_listing, h, hu, hfind]
  · intro data table u h hu hfind
    simp [upsert_listing, h, hu, hfind]

/-- Witness for C4 (amended): re-upserting "u" with only a street address
set rewrites that field and keeps the stored price. -/
theorem C4_upsert_amended_witness :
    upsert_listing
        { rew_url := some "u",
          items := [(ListingField.street_address, FieldVal.str "x")] } [c4Row]
      = [c4Row].map (fun row =>
          if row.rew_url = "u" then
            { row with fields := (setFields row.fields
                [(ListingField.street_address, FieldVal.str "x")]) }
          else row) ∧
    setFields c4Row.fields [(ListingField.street_address, FieldVal.str "x")]
        ListingField.price_cad = c4Row.fields ListingField.price_cad ∧
    setFields c4Row.fields [(ListingField.street_address, FieldVal.str "x")]
        ListingField.street_address = FieldVal.str "x" :=
  ⟨C4_upsert_amended.2.1
      { rew_url := some "u",
        items := [(ListingField.street_address, FieldVal.str "x")] }
      [c4Row] "u" c4Row rfl (by decide) rfl,
   C4_upsert_amended.2.2.2.1 c4Row.fields
      [(ListingField.street_address, FieldVal.str "x")]
      ListingField.price_cad (by decide),
   C4_upsert_amended.2.2.2.2
      [(ListingField.street_address, FieldVal.str "x")]
      c4Row.fields ListingField.street_address (FieldVal.str "x")
      (by decide) (by decide)⟩

/-- Accumulator version: grouping keys stay duplicate-free. -/
theorem foldlKeys_nodup {α κ : Type} [DecidableEq κ] (key : α → κ) :
    ∀ (l : List α) (acc : List κ), acc.Nodup →
      (l.foldl (fun acc x => if key x ∈ acc then acc else acc ++ [key x]) acc).Nodup := by
  intro l
  induction l with
  | nil => intro acc h; exact h
  | cons x rest ih =>
    intro acc h
    simp only [List.foldl_cons]
    by_cases hx : key x ∈ acc
    · rw [if_pos hx]
      exact ih acc h
    · rw [if_neg hx]
      refine ih _ (h.append (List.nodup_singleton _) ?_)
      intro a ha hb
      simp only [List.mem_singleton] at hb
      exact hx (hb ▸ ha)

/-- Accumulator version: membership in the grouped keys. -/
theorem foldlKeys_mem {α κ : Type} [DecidableEq κ] (key : α → κ) :
    ∀ (l : List α) (acc : List κ) (k : κ),
      k ∈ l.foldl (fun acc x => if key x ∈ acc then acc else acc ++ [key x]) acc
        ↔ k ∈ acc ∨ ∃ x ∈ l, key x = k := by
  intro l
  induction l with
  | nil => intro acc k; simp
  | cons x rest ih =>
    intro acc k
    simp only [List.foldl_cons]
    by_cases hx : key x ∈ acc
    · rw [if_pos hx, ih _ k]
      constructor
      · rintro (h | ⟨y, hy, hk⟩)
        · exact Or.inl h
        · exact Or.inr ⟨y, List.mem_cons_of_mem x hy, hk⟩
      · rintro (h | ⟨y, hy, hk⟩)
        · exact Or.inl h
        · rcases List.mem_cons.mp hy with rfl | hy₂
          · exact Or.inl (hk ▸ hx)
          · exact Or.inr ⟨y, hy₂, hk⟩
    · rw [if_neg hx, ih _ k]
      simp only [List.mem_append, List.mem_singleton]
      constructor
      · rintro ((h | rfl) | ⟨y, hy, hk⟩)
        · exact Or.inl h
        · exact Or.inr ⟨x, List.mem_cons.mpr (Or.inl rfl), rfl⟩
        · exact Or.inr ⟨y, List.mem_cons_of_mem x hy, hk⟩
      · rintro (h | ⟨y, hy, hk⟩)
        · exact Or.inl (Or.inl h)
        · rcases List.mem_cons.mp hy with rfl | hy₂
          · exact Or.inl (Or.inr hk.symm)
          · exact Or.inr ⟨y, hy₂, hk⟩

/-- The grouping keys are duplicate-free. -/
theorem firstAppearanceKeys_nodup {α κ : Type} [DecidableEq κ] (key : α → κ)
    (l : List α) : (firstAppearanceKeys key l).Nodup :=
  foldlKeys_nodup key l [] List.nodup_nil

/-- A key occurs in the grouping exactly when some row carries it. -/
theorem mem_firstAppearanceKeys {α κ : Type} [DecidableEq κ] (key : α → κ)
    (l : List α) (k : κ) :
    k ∈ firstAppearanceKeys key l ↔ ∃ x ∈ l, key x = k := by
  simpa using foldlKeys_mem key l [] k

/-- The stable-sort head is one of the candidates. -/
theorem firstMinBy_mem {α : Type} (rank : α → Nat) :
    ∀ (rest : List α) (best : α),
      firstMinBy rank best rest = best ∨ firstMinBy rank best rest ∈ rest := by
  intro rest
  induction rest with
  | nil => intro best; exact Or.inl rfl
  | cons r rest ih =>
    intro best
    rw [firstMinBy]
    by_cases h : rank r < rank best
    · rw [if_pos h]
      rcases ih r with heq | hmem
      · exact Or.inr (List.mem_cons.mpr (Or.inl heq))
      · exact Or.inr (List.mem_cons_of_mem r hmem)
    · rw [if_neg h]
      rcases ih best with heq | hmem
      · exact Or.inl heq
      · exact Or.inr (List.mem_cons_of_mem r hmem)

/-- The stable-sort head attains the minimal rank. -/
theorem firstMinBy_rank_le {α : Type} (rank : α → Nat) :
    ∀ (rest : List α) (best x : α), x = best ∨ x ∈ rest →
      rank (firstMinBy rank best rest) ≤ rank x := by
  intro rest
  induction rest with
  | nil =>
    intro best x hx
    rcases hx with rfl | h
    · exact Nat.le_refl _
    · simp at h
  | cons r rest ih =>
    intro best x hx
    rw [firstMinBy]
    by_cases h : rank r < rank best
    · rw [if_pos h]
      rcases hx with rfl | hx₂
      · exact Nat.le_trans (ih r r (Or.inl rfl)) (Nat.le_of_lt h)
      · rcases List.mem_cons.mp hx₂ with rfl | hmem
        · exact ih x x (Or.inl rfl)
        · exact ih r x (Or.inr hmem)
    · rw [if_neg h]
      rcases hx with rfl | hx₂
      · exact ih x x (Or.inl rfl)
      · rcases List.mem_cons.mp hx₂ with rfl | hmem
        · exact Nat.le_trans (ih best best (Or.inl rfl)) (Nat.not_lt.mp h)
        · exact ih best x (Or.inr hmem)

/-- Membership through the stable descending insertion. -/
theorem mem_insertDescBy {α : Type} (key : α → Int) (x : α) :
    ∀ (l : List α) (y : α), y ∈ insertDescBy key x l ↔ y = x ∨ y ∈ l := by
  intro l
  induction l with
  | nil => intro y; simp [insertDescBy]
  | cons z zs ih =>
    intro y
    rw [insertDescBy]
    by_cases h : key z < key x
    · rw [if_pos h]
      simp [List.mem_cons]
    · rw [if_neg h]
      simp only [List.mem_cons, ih]
      tauto

/-- The stable descending insertion is a permutation of consing. -/
theorem insertDescBy_perm {α : Type} (key : α → Int) (x : α) :
    ∀ l : List α, List.Perm (insertDescBy key x l) (x :: l) := by
  intro l
  induction l with
  | nil => exact List.Perm.refl _
  | cons z zs ih =>
    rw [insertDescBy]
    by_cases h : key z < key x
    · rw [if_pos h]
    · rw [if_neg h]
      exact List.Perm.trans (List.Perm.cons z ih) (List.Perm.swap x z zs)

/-- The stable descending insertion preserves descending sortedness. -/
theorem insertDescBy_sorted {α : Type} (key : α → Int) (x : α) :
    ∀ l : List α, List.Pairwise (fun a b => key b ≤ key a) l →
      List.Pairwise (fun a b => key b ≤ key a) (insertDescBy key x l) := by
  intro l
  induction l with
  | nil => intro _; exact List.pairwise_singleton _ _
  | cons z zs ih =>
    intro hp
    obtain ⟨hz, hzs⟩ := List.pairwise_cons.mp hp
    rw [insertDescBy]
    by_cases h : key z < key x
    · rw [if_pos h]
      refine List.Pairwise.cons ?_ hp
      intro b hb
      rcases List.mem_cons.mp hb with rfl | hmem
      · omega
      · have := hz b hmem
        omega
    · rw [if_neg h]
      refine List.Pairwise.cons ?_ (ih hzs)
      intro b hb
      rcases (mem_insertDescBy key x zs b).mp hb with rfl | hmem
      · omega
      · exact hz b hmem

/-- The descending sort permutes its input. -/
theorem sortDescBy_perm {α : Type} (key : α → Int) :
    ∀ l : List α, List.Perm (sortDescBy key l) l := by
  have aux : ∀ (l acc : List α),
      List.Perm (l.foldl (fun a x => insertDescBy key x a) acc) (acc ++ l) := by
    intro l
    induction l with
    | nil => intro acc; simp
    | cons x rest ih =>
      intro acc
      simp only [List.foldl_cons]
      refine List.Perm.trans (ih (insertDescBy key x acc)) ?_
      refine List.Perm.trans (List.Perm.append_right rest (insertDescBy_perm key x acc)) ?_
      exact List.Perm.symm List.perm_middle
  intro l
  simpa using aux l []

/-- The descending sort sorts. -/
theorem sortDescBy_sorted {α : Type} (key : α → Int) :
    ∀ l : List α, List.Pairwise (fun a b => key b ≤ key a) (sortDescBy key l) := by
  have aux : ∀ (l acc : List α),
      List.Pairwise (fun a b => key b ≤ key a) acc →
      List.Pairwise (fun a b => key b ≤ key a)
        (l.foldl (fun a x => insertDescBy key x a) acc) := by
    intro l
    induction l with
    | nil => intro acc h; exact h
    | cons x rest ih =>
      intro acc h
      simp only [List.foldl_cons]
      exact ih _ (insertDescBy_sorted key x acc h)
  intro l
  exact aux l [] List.Pairwise.nil

/-- Python truthiness chain of the price-per-area derivation. -/
theorem salePricePerSqft_spec (s : Sale) :
    (salePricePerSqft s ≠ none →
      s.sale_price_cad ≠ 0 ∧ ∃ a, s.sqft = some a ∧ 0 < a) ∧
    ((¬ ∃ a, s.sqft = some a ∧ 0 < a) → salePricePerSqft s = none) := by
  by_cases hp : s.sale_price_cad = 0
  · constructor
    · intro h
      exact absurd (by simp [salePricePerSqft, hp]) h
    · intro _
      simp [salePricePerSqft, hp]
  · cases hsq : s.sqft with
    | none =>
      constructor
      · intro h
        exact absurd (by simp [salePricePerSqft, hp, hsq]) h
      · intro _
        simp [salePricePerSqft, hp, hsq]
    | some a =>
      by_cases ha2 : 0 < a
      · constructor
        · intro _
          exact ⟨hp, a, rfl, ha2⟩
        · intro hno
          exact absurd ⟨a, rfl, ha2⟩ hno
      · have hz : ∀ h0 : a ≠ 0, salePricePerSqft s = none := by
          intro h0
          simp [salePricePerSqft, hp, hsq, h0, ha2]
        constructor
        · intro h
          by_cases h0 : a = 0
          · exact absurd (by simp [salePricePerSqft, hp, hsq, h0]) h
          · exact absurd (hz h0) h
        · intro _
          by_cases h0 : a = 0
          · simp [salePricePerSqft, hp, hsq, h0]
          · exact hz h0

/-- Mapping a section of each produced element back to its key recovers
the key list. -/
theorem filterMap_map_eq_self {β κ : Type} (f : κ → Option β) (g : β → κ) :
    ∀ ks : List κ, (∀ k ∈ ks, ∃ m, f k = some m ∧ g m = k) →
      (ks.filterMap f).map g = ks := by
  intro ks
  induction ks with
  | nil => intro _; rfl
  | cons k rest ih =>
    intro h
    obtain ⟨m, hf, hg⟩ := h k (List.mem_cons.mpr (Or.inl rfl))
    simp only [List.filterMap_cons, hf, List.map_cons, hg]
    rw [ih (fun k₂ hk₂ => h k₂ (List.mem_cons_of_mem k hk₂))]

/-- Rewriting `merge_sales` in closed form: the sorted, clustered merge (the empty
case coincides with the general expression). -/
theorem merge_sales_eq (sales : List Sale) :
    merge_sales sales
      = sortDescBy (fun r => r.sale_date)
          ((firstAppearanceKeys (fun s => (s.sale_date, s.sale_price_cad)) sales).filterMap
            (fun k => mergeCluster k.1 k.2
              (sales.filter (fun s => (s.sale_date, s.sale_price_cad) = k)))) := by
  cases sales <;> rfl

/-- Keys of the pre-sort merged list are exactly the grouping keys. -/
theorem merged_pre_keys (sales : List Sale) :
    (((firstAppearanceKeys (fun s => (s.sale_date, s.sale_price_cad)) sales).filterMap
        (fun k => mergeCluster k.1 k.2
          (sales.filter (fun s => (s.sale_date, s.sale_price_cad) = k)))).map
      (fun m => (m.sale_date, m.sale_price_cad)))
      = firstAppearanceKeys (fun s => (s.sale_date, s.sale_price_cad)) sales := by
  apply filterMap_map_eq_self
  intro k hk
  obtain ⟨s, hs, hks⟩ :=
    (mem_firstAppearanceKeys (fun s => (s.sale_date, s.sale_price_cad)) sales k).mp hk
  have hsf : s ∈ sales.filter (fun s => (s.sale_date, s.sale_price_cad) = k) :=
    List.mem_filter.mpr ⟨hs, by simp [hks]⟩
  cases hcl : sales.filter (fun s => (s.sale_date, s.sale_price_cad) = k) with
  | nil =>
    rw [hcl] at hsf
    simp at hsf
  | cons r rest =>
    exact ⟨_, rfl, rfl⟩

/-- Every pre-sort merged record is built from its cluster: its primary is
a cluster row whose source rank is minimal in the cluster. -/
theorem merged_pre_spec (sales : List Sale) (m : MergedSale)
    (hm : m ∈ (firstAppearanceKeys (fun s => (s.sale_date, s.sale_price_cad)) sales).filterMap
      (fun k => mergeCluster k.1 k.2
        (sales.filter (fun s => (s.sale_date, s.sale_price_cad) = k)))) :
    (∃ s ∈ sales, s.sale_date = m.sale_date ∧ s.sale_price_cad = m.sale_price_cad ∧
      s.source = m.primary_source ∧ s.sqft = m.sqft ∧
      salePricePerSqft s = m.price_per_sqft) ∧
    (∀ s ∈ sales, s.sale_date = m.sale_date → s.sale_price_cad = m.sale_price_cad →
      pick_primary_source m.primary_source PREFERRED_SALE_SOURCES
        ≤ pick_primary_source s.source PREFERRED_SALE_SOURCES) := by
  obtain ⟨k, hk, hfk⟩ := List.mem_filterMap.mp hm
  cases hcl : sales.filter (fun s => (s.sale_date, s.sale_price_cad) = k) with
  | nil =>
    rw [hcl] at hfk
    simp [mergeCluster] at hfk
  | cons r rest =>
    rw [hcl] at hfk
    simp only [mergeCluster, Option.some.injEq] at hfk
    subst hfk
    have hpmem : firstMinBy
        (fun s => pick_primary_source s.source PREFERRED_SALE_SOURCES) r rest = r ∨
        firstMinBy (fun s => pick_primary_source s.source PREFERRED_SALE_SOURCES) r rest ∈ rest :=
      firstMinBy_mem _ rest r
    have hpcluster : firstMinBy
        (fun s => pick_primary_source s.source PREFERRED_SALE_SOURCES) r rest ∈ r :: rest := by
      rcases hpmem with heq | hmem
      · exact List.mem_cons.mpr (Or.inl heq)
      · exact List.mem_cons_of_mem r hmem
    have hpfilter : firstMinBy
        (fun s => pick_primary_source s.source PREFERRED_SALE_SOURCES) r rest
        ∈ sales.filter (fun s => (s.sale_date, s.sale_price_cad) = k) := by
      rw [hcl]; exact hpcluster
    have hpsales := (List.mem_filter.mp hpfilter).1
    have hpkey : (firstMinBy
        (fun s => pick_primary_source s.source PREFERRED_SALE_SOURCES) r rest).sale_date = k.1 ∧
        (firstMinBy
          (fun s => pick_primary_source s.source PREFERRED_SALE_SOURCES) r rest).sale_price_cad = k.2 := by
      have h₂ := (List.mem_filter.mp hpfilter).2
      simp only [decide_eq_true_eq, Prod.ext_iff] at h₂
      exact h₂
    constructor
    · exact ⟨_, hpsales, hpkey.1, hpkey.2, rfl, rfl, rfl⟩
    · intro s hs hd hp
      have hsfilter : s ∈ sales.filter
          (fun s => (s.sale_date, s.sale_price_cad) = k) := by
        refine List.mem_filter.mpr ⟨hs, ?_⟩
        simp only [decide_eq_true_eq, Prod.ext_iff]
        exact ⟨hd, hp⟩
      rw [hcl] at hsfilter
      rcases List.mem_cons.mp hsfilter with rfl | hmem
      · exact firstMinBy_rank_le
          (fun t => pick_primary_source t.source PREFERRED_SALE_SOURCES)
          rest s s (Or.inl rfl)
      · exact firstMinBy_rank_le
          (fun t => pick_primary_source t.source PREFERRED_SALE_SOURCES)
          rest r s (Or.inr hmem)

/-- Claim C6. `merge_sales` clusters by the exact (date, price) key — one
record per distinct key, covering every input row's key; each record's
primary is a cluster row of minimal source rank in the sale-source
preference (unlisted last, as ranked by `pick_primary_source`); price per
area is derived only when the primary has a nonzero price and a positive
area, and is null whenever no positive area exists; records are sorted by
date descending; and on the spec's example the mls row wins the cluster. -/
theorem C6_merge_sales_properties :
    (∀ sales : List Sale,
      ((merge_sales sales).map (fun m => (m.sale_date, m.sale_price_cad))).Nodup ∧
      (∀ s ∈ sales, ∃ m ∈ merge_sales sales,
        m.sale_date = s.sale_date ∧ m.sale_price_cad = s.sale_price_cad) ∧
      List.Pairwise (fun a b => b.sale_date ≤ a.sale_date) (merge_sales sales)) ∧
    (∀ (sales : List Sale) (m : MergedSale), m ∈ merge_sales sales →
      (∃ s ∈ sales, s.sale_date = m.sale_date ∧ s.sale_price_cad = m.sale_price_cad ∧
        s.source = m.primary_source ∧ s.sqft = m.sqft ∧
        salePricePerSqft s = m.price_per_sqft) ∧
      (∀ s ∈ sales, s.sale_date = m.sale_date → s.sale_price_cad = m.sale_price_cad →
        pick_primary_source m.primary_source PREFERRED_SALE_SOURCES
          ≤ pick_primary_source s.source PREFERRED_SALE_SOURCES) ∧
      ((m.price_per_sqft ≠ none → m.sale_price_cad ≠ 0 ∧ ∃ a, m.sqft = some a ∧ 0 < a) ∧
        ((¬ ∃ a, m.sqft = some a ∧ 0 < a) → m.price_per_sqft = none))) ∧
    (merge_sales specExampleSales).map (fun m => m.primary_source) = ["mls"] := by
  have hmem_pre : ∀ (sales : List Sale) (m : MergedSale), m ∈ merge_sales sales →
      m ∈ (firstAppearanceKeys (fun s => (s.sale_date, s.sale_price_cad)) sales).filterMap
        (fun k => mergeCluster k.1 k.2
          (sales.filter (fun s => (s.sale_date, s.sale_price_cad) = k))) := by
    intro sales m hm
    rw [merge_sales_eq] at hm
    exact (sortDescBy_perm (fun r : MergedSale => r.sale_date) _).subset hm
  refine ⟨?_, ?_, by decide⟩
  · intro sales
    refine ⟨?_, ?_, ?_⟩
    · rw [merge_sales_eq]
      have hperm := (sortDescBy_perm (fun r : MergedSale => r.sale_date)
        ((firstAppearanceKeys (fun s => (s.sale_date, s.sale_price_cad)) sales).filterMap
          (fun k => mergeCluster k.1 k.2
            (sales.filter (fun s => (s.sale_date, s.sale_price_cad) = k))))).map
        (fun m => (m.sale_date, m.sale_price_cad))
      rw [hperm.nodup_iff, merged_pre_keys]
      exact firstAppearanceKeys_nodup _ sales
    · intro s hs
      have hk : (s.sale_date, s.sale_price_cad)
          ∈ firstAppearanceKeys (fun s => (s.sale_date, s.sale_price_cad)) sales :=
        (mem_firstAppearanceKeys _ sales _).mpr ⟨s, hs, rfl⟩
      rw [← merged_pre_keys sales] at hk
      obtain ⟨m, hmpre, hmk⟩ := List.mem_map.mp hk
      refine ⟨m, ?_, ?_, ?_⟩
      · rw [merge_sales_eq]
        exact ((sortDescBy_perm (fun r : MergedSale => r.sale_date) _).mem_iff).mpr hmpre
      · exact congrArg Prod.fst hmk
      · exact congrArg Prod.snd hmk
    · rw [merge_sales_eq]
      exact sortDescBy_sorted (fun r : MergedSale => r.sale_date) _
  · intro sales m hm
    have hpre := hmem_pre sales m hm
    obtain ⟨hprim, hrank⟩ := merged_pre_spec sales m hpre
    refine ⟨hprim, hrank, ?_, ?_⟩
    · intro hpps
      obtain ⟨s, _, _, hp, _, hsq, hpeq⟩ := hprim
      rw [← hpeq] at hpps
      obtain ⟨hp0, a, ha, hapos⟩ := (salePricePerSqft_spec s).1 hpps
      exact ⟨hp ▸ hp0, a, hsq ▸ ha, hapos⟩
    · intro hno
      obtain ⟨s, _, _, _, _, hsq, hpeq⟩ := hprim
      rw [← hpeq]
      refine (salePricePerSqft_spec s).2 ?_
      intro ⟨a, ha, hapos⟩
      exact hno ⟨a, hsq ▸ ha, hapos⟩

/-- Witness for C6: the clustering/primary/sort facts applied to the
spec's two-row example. -/
theorem C6_merge_sales_properties_witness :
    (∀ s ∈ specExampleSales, ∃ m ∈ merge_sales specExampleSales,
      m.sale_date = s.sale_date ∧ m.sale_price_cad = s.sale_price_cad) ∧
    List.Pairwise (fun a b => b.sale_date ≤ a.sale_date)
      (merge_sales specExampleSales) :=
  ⟨(C6_merge_sales_properties.1 specExampleSales).2.1,
   (C6_merge_sales_properties.1 specExampleSales).2.2⟩

/-- Witness for C7: a claim on a fresh pending item raises `attempts` from
0 to 1; batch claims select only eligible rows; and the exhausted item of
`c7Queue` is not claimed after a `mark_done`/`mark_failed`/enqueue churn. -/
theorem C7_attempts_monotone_and_cap_witness :
    (0 : Nat) ≤ 1 ∧
    ((1 : Nat) ∉ (dequeue_next_batch 3 (applyOps
      [QueueOp.markDone 1, QueueOp.markFailed 1 "again",
       QueueOp.enqueue ["v"] 2] c7Queue)).1) := by
  constructor
  · exact C7_attempts_monotone_and_cap.1 (QueueOp.claim 1) c2Queue 1
      { id := 1, url := "a", status := QStatus.pending, attempts := 0,
        last_error := none }
      { id := 1, url := "a", status := QStatus.scraping, attempts := 1,
        last_error := none } (by decide) (by decide)
  · exact C7_attempts_monotone_and_cap.2.2
      [QueueOp.markDone 1, QueueOp.markFailed 1 "again",
       QueueOp.enqueue ["v"] 2] c7Queue 1
      { id := 1, url := "u", status := QStatus.error, attempts := 5,
        last_error := some "boom" } (by decide) rfl (by decide) (by decide) 3

end RealEstate
